import Mathlib

/-!
# Verification of the lachesis-dag-tool dagreader store

A shallow embedding of the dagreader ingestion-and-query bridge:

* `GraphDB` models the backing neo4j graph state: `Event` nodes keyed by a
  unique id carrying the creator property, directed `PARENT` edges from a
  child event node to a parent event node, and the singleton `Epoch` row.
* `LRU` models the `hashicorp/golang-lru` events-headers cache (capacity 500).
* `Db` models `neo4j.Db` from the repository, with `HasEvent`, `GetEvent`,
  `FindAncestors`, `GetEpoch`, `SetEpoch` and the per-task body of `Load`.
  Each store transaction can be told to fail (the driver returning an error
  together with a `nil` result), which lets us state the error policy exactly
  as the Go code realises it.
* A labelled transition system models the `store` pipeline from
  `dagreader/store.go`: a bounded queue of capacity 10, producers enqueueing
  tasks via `Save`, and the single consumer loop of `Db.Load` dequeueing,
  committing, updating the cache and firing the per-task completion signal.
-/

namespace DagReader

/-- An event header: the content hash (the node id), the creator and the
ordered list of parent hashes.  Mirrors the fields the Go code actually
persists and reconstructs (`id`, `creator`, `Parents`). -/
structure Event where
  hash : Nat
  creator : Nat
  parents : List Nat
  deriving DecidableEq, Repr

/-- The persistent graph state behind the neo4j driver: `Event` nodes
(id, creator) with a uniqueness constraint on id, `PARENT` edges
(child id, parent id), and the singleton `Epoch` row (`id = current`,
property `num`), absent before bootstrap. -/
structure GraphDB where
  nodes : List (Nat × Nat)
  edges : List (Nat × Nat)
  epochRow : Option Nat
  deriving DecidableEq, Repr

/-- Node ids present in the store. -/
def GraphDB.nodeIds (g : GraphDB) : List Nat :=
  g.nodes.map Prod.fst

/-- The write transaction of one `Db.Load` iteration:
`CREATE (e:Event {..})` followed by one
`MATCH (e),(p) CREATE (e)-[:PARENT]->(p)` per listed parent, all committed
atomically.  When a node with the same id already exists the uniqueness
constraint makes the commit fail and the whole transaction rolls back (the
error is swallowed by the caller); otherwise the node is created and an edge
is created for every parent whose node exists at that point (the event's own
node was just created inside the same transaction, so it can be matched). -/
def GraphDB.commitEvent (g : GraphDB) (e : Event) : GraphDB :=
  if g.nodes.any (fun n => n.1 = e.hash) then g
  else
    { g with
      nodes := g.nodes ++ [(e.hash, e.creator)]
      edges := g.edges ++
        ((e.parents.filter
          (fun p => p = e.hash || g.nodes.any (fun n => n.1 = p))).map
          (fun p => (e.hash, p))) }

/-- The schema bootstrap performed by `New`: `CREATE (e:Epoch
{id:'current',num:1})`.  When the row already exists the uniqueness
constraint rejects the create, the error is swallowed (`ignoreFakeError`)
and the existing row is kept. -/
def GraphDB.bootstrap (g : GraphDB) : GraphDB :=
  match g.epochRow with
  | some _ => g
  | none => { g with epochRow := some 1 }

/-- The golang-lru cache of event headers: entries most-recent first,
bounded by `cap`. -/
structure LRU where
  entries : List (Nat × Event)
  cap : Nat
  deriving DecidableEq, Repr

/-- `lru.Get`: on a hit the entry moves to the front and its value is
returned; on a miss the cache is unchanged. -/
def LRU.get (c : LRU) (k : Nat) : LRU × Option Event :=
  match c.entries.find? (fun p => p.1 = k) with
  | none => (c, none)
  | some p =>
      ({ c with entries := p :: c.entries.filter (fun q => q.1 ≠ k) }, some p.2)

/-- `lru.Add`: insert (or refresh) the key at the front, evicting beyond
the capacity. -/
def LRU.add (c : LRU) (k : Nat) (v : Event) : LRU :=
  { c with entries := ((k, v) :: c.entries.filter (fun q => q.1 ≠ k)).take c.cap }

/-- The `neo4j.Db` handle: driver connection state reduced to the graph
plus the events-headers LRU cache. -/
structure Db where
  store : GraphDB
  cache : LRU
  deriving DecidableEq, Repr

/-- `New(dbUrl)`: run the DDLs (constraints and epoch seed, failures
swallowed) and allocate a 500-entry LRU cache. -/
def Db.new (g : GraphDB) : Db :=
  { store := g.bootstrap, cache := { entries := [], cap := 500 } }

/-- `Db.HasEvent`: LRU cache first; on a miss, one read transaction
(`MATCH (e:Event {id}) RETURN e`, answer `res.Next()`).  `txFail` models the
driver returning an error with a `nil` result: the code calls
`ignoreFakeError` and then evaluates `res.(bool)` on the nil interface,
which panics. -/
def Db.HasEvent (s : Db) (e : Nat) (txFail : Bool) : Db × Except String Bool :=
  match (s.cache.get e).2 with
  | some _ => ({ s with cache := (s.cache.get e).1 }, .ok true)
  | none =>
      if txFail then
        ({ s with cache := (s.cache.get e).1 },
          .error "interface conversion panic: nil result asserted to bool")
      else
        ({ s with cache := (s.cache.get e).1 },
          .ok (s.store.nodes.any (fun n => n.1 = e)))

/-- `Db.GetEvent`: LRU cache first; on a miss, a node-lookup read transaction
(`RETURN e.id as id, e.creator as creator`) followed by a separate
parent-edge read transaction (`MATCH (e)-[:PARENT]->(p) RETURN p.id`); the
header is reconstructed from the two.  A failed first transaction leaves
`res = nil`, which the code returns as `nil` (not found); a failed second
transaction leaves `res = nil` and `res.(hash.Events)` panics.  Note the
code never inserts the reconstructed header into the cache. -/
def Db.GetEvent (s : Db) (e : Nat) (txFail1 txFail2 : Bool) :
    Db × Except String (Option Event) :=
  match (s.cache.get e).2 with
  | some ev => ({ s with cache := (s.cache.get e).1 }, .ok (some ev))
  | none =>
      let s' : Db := { s with cache := (s.cache.get e).1 }
      if txFail1 then (s', .ok none)
      else
        match s.store.nodes.find? (fun n => n.1 = e) with
        | none => (s', .ok none)
        | some node =>
            if txFail2 then
              (s', .error "interface conversion panic: nil result asserted to slice")
            else
              (s', .ok (some
                { hash := e
                  creator := node.2
                  parents := s.store.edges.filterMap
                    (fun p => if p.1 = e then some p.2 else none) }))

/-- The nodes directly pointed to by a PARENT edge whose source lies in
`xs`. -/
def succsOf (edges : List (Nat × Nat)) (xs : List Nat) : List Nat :=
  edges.filterMap (fun p => if p.1 ∈ xs then some p.2 else none)

/-- Successors of the accumulated set that are not yet in it, each once. -/
def newFrontier (edges : List (Nat × Nat)) (acc : List Nat) : List Nat :=
  ((succsOf edges acc).filter (fun x => decide (x ∉ acc))).dedup

/-- Saturate the accumulated set under PARENT edges, with enough fuel to
reach the fixpoint. -/
def iterReach (edges : List (Nat × Nat)) : Nat → List Nat → List Nat
  | 0, acc => acc
  | n + 1, acc =>
      if newFrontier edges acc = [] then acc
      else iterReach edges n (acc ++ newFrontier edges acc)

/-- All nodes reachable from `h` by one or more PARENT edges, each once. -/
def reachSet (edges : List (Nat × Nat)) (h : Nat) : List Nat :=
  iterReach edges (edges.length + 1) ((succsOf edges [h]).dedup)

/-- One PARENT edge from `a` to `b`. -/
def edgeRel (edges : List (Nat × Nat)) (a b : Nat) : Prop :=
  (a, b) ∈ edges

/-- Modelled from the spec: the backing store's evaluation of
`MATCH (p:Event {id})-[:PARENT*]->(s:Event) RETURN DISTINCT s.id`.  The
query text is sent to the external graph database, whose traversal engine is
not part of this repository; per the spec it is a transitive-closure
traversal following PARENT edges of arbitrary depth returning the distinct
reachable nodes.  The match yields no rows when no node with the queried id
exists. -/
def GraphDB.ancestors (g : GraphDB) (h : Nat) : List Nat :=
  if g.nodes.any (fun n => n.1 = h) then reachSet g.edges h else []

/-- `Db.FindAncestors`: one read transaction issuing the PARENT* DISTINCT
traversal.  `txFail` models the driver returning an error with a `nil`
result: the code calls `ignoreFakeError` and then evaluates
`res.([]hash.Event)` on the nil interface, which panics. -/
def Db.FindAncestors (s : Db) (e : Nat) (txFail : Bool) :
    Except String (List Nat) :=
  if txFail then
    .error "interface conversion panic: nil result asserted to slice"
  else .ok (s.store.ancestors e)

/-- `Db.SetEpoch`: one write transaction running
`MATCH (e:Epoch {id:'current'}) SET e.num = %d`.  A failed transaction is
rolled back and the error swallowed; a `MATCH` on an absent row updates
nothing. -/
def Db.SetEpoch (s : Db) (num : Nat) (txFail : Bool) : Db :=
  if txFail then s
  else
    match s.store.epochRow with
    | none => s
    | some _ => { s with store := { s.store with epochRow := some num } }

/-- `Db.GetEpoch`: one read transaction returning the singleton `num`; when
the row is absent — or the transaction failed, leaving `res = nil` — the
code returns epoch 1. -/
def Db.GetEpoch (s : Db) (txFail : Bool) : Nat :=
  if txFail then 1
  else
    match s.store.epochRow with
    | none => 1
    | some n => n

/-- A pipeline task: one event plus the optional completion callback
(`onDone`).  `Save` sets the callback only in synchronous mode; we identify
the callback by the signal id it fires. -/
structure Task where
  event : Event
  onDone : Option Nat
  deriving DecidableEq, Repr

/-- `task.Payload`. -/
def Task.Payload (t : Task) : Event :=
  t.event

/-- Invoking a Go function value: calling a `nil` function panics; calling
the completion callback fires its signal. -/
def callOnDone (f : Option Nat) : Except String (List Nat) :=
  match f with
  | none => .error "nil function value call panic"
  | some id => .ok [id]

/-- `task.Done`: the callback is invoked only behind the `t.onDone != nil`
guard. -/
def Task.Done (t : Task) : Except String (List Nat) :=
  if t.onDone.isSome then callOnDone t.onDone else .ok []

/-- The signals `task.Done` fires. -/
def Task.signals (t : Task) : List Nat :=
  match t.Done with
  | .ok l => l
  | .error _ => []

/-- Where the consumer loop of `Db.Load` stands inside one iteration:
between dequeue+commit and the cache update, or between the cache update
and `task.Done()`. -/
inductive CStage where
  | idle : CStage
  | committed : Task → CStage
  | cached : Task → CStage
  deriving DecidableEq, Repr

/-- The pipeline state: the `Db`, the configured mode, the bounded channel
contents, whether `Close` ran, the consumer micro-state, plus history
variables (every task ever enqueued, every task dequeued, every completion
signal fired, the fresh-signal counter, and how many final summary lines
were emitted). -/
structure PState where
  db : Db
  synced : Bool
  queue : List Task
  closed : Bool
  stage : CStage
  consumerDone : Bool
  fired : List Nat
  enqueued : List Task
  consumed : List Task
  nextId : Nat
  summaries : Nat
  deriving DecidableEq, Repr

/-- The task `store.Save` builds: the completion callback is attached only
in synchronous mode. -/
def mkTask (e : Event) (synced : Bool) (id : Nat) : Task :=
  { event := e, onDone := if synced then some id else none }

/-- Effect of `store.Save`'s send on the channel. -/
def enqueueState (s : PState) (e : Event) : PState :=
  { s with
    queue := s.queue ++ [mkTask e s.synced s.nextId]
    enqueued := s.enqueued ++ [mkTask e s.synced s.nextId]
    nextId := s.nextId + 1 }

/-- Effect of the consumer receiving the next task and running its write
transaction (the `CREATE` of the event node and its parent edges). -/
def commitState (s : PState) (t : Task) (rest : List Task) : PState :=
  { s with
    queue := rest
    consumed := s.consumed ++ [t]
    db := { s.db with store := s.db.store.commitEvent t.event }
    stage := .committed t }

/-- Effect of `s.cache.EventsHeaders.Add(event.Hash(), event)`. -/
def cacheState (s : PState) (t : Task) : PState :=
  { s with
    db := { s.db with cache := s.db.cache.add t.event.hash t.event }
    stage := .cached t }

/-- Effect of `task.Done()`. -/
def signalState (s : PState) (t : Task) : PState :=
  { s with fired := s.fired ++ t.signals, stage := .idle }

/-- Effect of `store.Close`: `close(s.out)`. -/
def closeState (s : PState) : PState :=
  { s with closed := true }

/-- Effect of the consumer's `for` loop ending on the closed, drained
channel: the final summary line is emitted and the consumer terminates. -/
def finishState (s : PState) : PState :=
  { s with consumerDone := true, summaries := s.summaries + 1 }

/-- Labels of the pipeline transitions. -/
inductive Label where
  | save : Event → Label
  | commit : Label
  | cacheAdd : Label
  | signal : Label
  | close : Label
  | finish : Label
  deriving DecidableEq, Repr

/-- One interleaving step of the pipeline.  `save` requires an open channel
with a free slot (a producer on a full channel blocks, a send on a closed
channel is forbidden); the consumer steps follow the body of `Db.Load`'s
loop in program order: dequeue+commit, then cache add, then `task.Done`;
`finish` fires only once the channel is closed and fully drained. -/
inductive Step : PState → Label → PState → Prop where
  | save : ∀ s e, s.closed = false → s.queue.length < 10 →
      Step s (.save e) (enqueueState s e)
  | commit : ∀ s t rest, s.consumerDone = false → s.stage = .idle →
      s.queue = t :: rest → Step s .commit (commitState s t rest)
  | cacheAdd : ∀ s t, s.stage = .committed t →
      Step s .cacheAdd (cacheState s t)
  | signal : ∀ s t, s.stage = .cached t →
      Step s .signal (signalState s t)
  | close : ∀ s, s.closed = false → Step s .close (closeState s)
  | finish : ∀ s, s.consumerDone = false → s.closed = true →
      s.queue = [] → s.stage = .idle → Step s .finish (finishState s)

/-- `newStore(db, synced)`: fresh `Db` (from `New`), a channel of capacity
10, and the consumer goroutine started on an empty queue. -/
def initState (g : GraphDB) (synced : Bool) : PState :=
  { db := Db.new g
    synced := synced
    queue := []
    closed := false
    stage := .idle
    consumerDone := false
    fired := []
    enqueued := []
    consumed := []
    nextId := 0
    summaries := 0 }

/-- States reachable from some freshly constructed pipeline. -/
inductive Reachable : PState → Prop where
  | init : ∀ g b, Reachable (initState g b)
  | step : ∀ s l s', Reachable s → Step s l s' → Reachable s'

/-- Finitely many pipeline steps. -/
inductive StepStar : PState → PState → Prop where
  | refl : ∀ s, StepStar s s
  | tail : ∀ s s' l s'', StepStar s s' → Step s' l s'' → StepStar s s''

/-- Weight of the consumer micro-state, for the drain measure. -/
def stageWeight : CStage → Nat
  | .idle => 0
  | .committed _ => 2
  | .cached _ => 1

/-- Run the consumer with the given fuel: finish each started iteration,
dequeue and process every queued task, and finally exit the loop. -/
def drainFuel : Nat → PState → PState
  | 0, s => s
  | n + 1, s =>
      match s.stage with
      | .committed t => drainFuel n (cacheState s t)
      | .cached t => drainFuel n (signalState s t)
      | .idle =>
          match s.queue with
          | t :: rest => drainFuel n (commitState s t rest)
          | [] => finishState s

/-- What the consumer does after `Close`: drain the queue and terminate. -/
def drain (s : PState) : PState :=
  drainFuel (3 * s.queue.length + stageWeight s.stage + 1) s

/-- The tasks whose iteration has fully completed (the task the consumer is
mid-way through, always the last dequeued one, excluded). -/
def completedTasks (s : PState) : List Task :=
  match s.stage with
  | .idle => s.consumed
  | .committed _ => s.consumed.dropLast
  | .cached _ => s.consumed.dropLast

/-- Every edge of the store joins two existing event nodes; true of every
store the pipeline can build. -/
def GraphDB.WellFormed (g : GraphDB) : Prop :=
  ∀ p ∈ g.edges, p.1 ∈ g.nodeIds ∧ p.2 ∈ g.nodeIds

/-- The pipeline invariant: the channel respects its capacity; the enqueue
history splits into the consumption history followed by the waiting queue
(FIFO, nothing dropped, nothing reordered); the fired signals are exactly
the completion signals of the fully processed tasks in order; a mid-iteration
task is the most recently dequeued one; every dequeued task's event node is
in the store; after the cache update the cache serves the in-flight event;
a terminated consumer implies a closed, drained pipeline; the cache keeps
its configured capacity; exactly one summary line is emitted, at
termination. -/
structure Inv (s : PState) : Prop where
  qcap : s.queue.length ≤ 10
  queueSplit : s.enqueued = s.consumed ++ s.queue
  firedEq : s.fired = (completedTasks s).filterMap Task.onDone
  lastConsumed : ∀ t, s.stage = .committed t ∨ s.stage = .cached t →
    s.consumed.getLast? = some t
  nodeMem : ∀ t ∈ s.consumed, t.event.hash ∈ s.db.store.nodeIds
  cacheHit : ∀ t, s.stage = .cached t →
    (s.db.cache.get t.event.hash).2 = some t.event
  doneIdle : s.consumerDone = true →
    s.closed = true ∧ s.queue = [] ∧ s.stage = .idle
  capEq : s.db.cache.cap = 500
  sumEq : s.summaries = if s.consumerDone then 1 else 0

/-- A set of nodes closed under following PARENT edges. -/
def EdgeClosed (edges : List (Nat × Nat)) (s : List Nat) : Prop :=
  ∀ a ∈ s, ∀ b, (a, b) ∈ edges → b ∈ s

/-- One iteration of `Db.Load` on task `t` at the `Db` level, with the write
transaction either committing or failing (`txFail`).  A failed transaction
is rolled back by the store and the error is swallowed by
`ignoreFakeError`; the iteration is not retried and continues regardless:
the cache is updated and `task.Done` is invoked, so the loop itself never
surfaces an error. -/
def Db.loadStep (s : Db) (t : Task) (txFail : Bool) : Db × List Nat :=
  ({ store := if txFail then s.store else s.store.commitEvent t.event
     cache := s.cache.add t.event.hash t.event }, t.signals)

/-- Concrete events mirroring the spec's scenario: A with no parents, B with
parent A, C with parents A and B. -/
def eA : Event :=
  { hash := 1, creator := 10, parents := [] }

def eB : Event :=
  { hash := 2, creator := 11, parents := [1] }

def eC : Event :=
  { hash := 3, creator := 12, parents := [1, 2] }

/-- A fresh, never-bootstrapped backing store. -/
def gW : GraphDB :=
  { nodes := [], edges := [], epochRow := none }

/-- The synchronous-mode task for `eA` carrying signal id 0. -/
def tA : Task :=
  mkTask eA true 0

/-- An asynchronous-mode task (no completion callback). -/
def tB : Task :=
  mkTask eB false 0

/-- A synchronous pipeline right after `Save(eA)` enqueued its task. -/
def w1 : PState :=
  enqueueState (initState gW true) eA

/-- ... after the consumer dequeued `eA`'s task and ran its commit. -/
def w2 : PState :=
  commitState w1 tA []

/-- ... after the consumer inserted `eA` into the cache. -/
def w3 : PState :=
  cacheState w2 tA

/-- A `Db` whose store holds one event node (id 1, creator 7) and whose
cache is empty. -/
def dbC3 : Db :=
  { store := { nodes := [(1, 7)], edges := [], epochRow := some 1 }
    cache := { entries := [], cap := 500 } }

/-- A `Db` with an absent epoch row and an empty cache. -/
def dbW0 : Db :=
  { store := gW, cache := { entries := [], cap := 500 } }

/-- A `Db` whose singleton epoch row holds 7. -/
def dbE : Db :=
  { store := { nodes := [], edges := [], epochRow := some 7 }
    cache := { entries := [], cap := 500 } }

/-- A `Db` holding the spec's concrete scenario: events A, B (parent A) and
C (parents A, B) fully persisted. -/
def dbW9 : Db :=
  { store := { nodes := [(1, 10), (2, 11), (3, 12)]
               edges := [(2, 1), (3, 1), (3, 2)]
               epochRow := some 1 }
    cache := { entries := [], cap := 500 } }

/-- A pipeline state whose channel is full (10 pending tasks). -/
def sFull : PState :=
  { initState gW true with queue := List.replicate 10 tA }

theorem mem_succsOf {edges : List (Nat × Nat)} {xs : List Nat} {b : Nat} :
    b ∈ succsOf edges xs ↔ ∃ a, a ∈ xs ∧ (a, b) ∈ edges := by
  unfold succsOf
  rw [List.mem_filterMap]
  constructor
  · rintro ⟨⟨a, c⟩, hmem, hf⟩
    split at hf
    · rename_i hax
      injection hf with hcb
      subst hcb
      exact ⟨a, hax, hmem⟩
    · simp at hf
  · rintro ⟨a, hax, hab⟩
    refine ⟨(a, b), hab, ?_⟩
    simp [hax]

theorem mem_newFrontier {edges : List (Nat × Nat)} {acc : List Nat} {b : Nat} :
    b ∈ newFrontier edges acc ↔ b ∈ succsOf edges acc ∧ b ∉ acc := by
  unfold newFrontier
  rw [List.mem_dedup, List.mem_filter]
  simp

theorem subset_iterReach (edges : List (Nat × Nat)) :
    ∀ n acc, acc ⊆ iterReach edges n acc := by
  intro n
  induction n with
  | zero =>
    intro acc
    rw [iterReach]
    exact fun x hx => hx
  | succ n ih =>
    intro acc
    rw [iterReach]
    split
    · exact fun x hx => hx
    · exact fun x hx =>
        ih (acc ++ newFrontier edges acc) (List.mem_append_left _ hx)

theorem iterReach_sound (edges : List (Nat × Nat)) (P : Nat → Prop)
    (hstep : ∀ a b, P a → (a, b) ∈ edges → P b) :
    ∀ n acc, (∀ a ∈ acc, P a) → ∀ x ∈ iterReach edges n acc, P x := by
  intro n
  induction n with
  | zero =>
    intro acc hacc x hx
    rw [iterReach] at hx
    exact hacc x hx
  | succ n ih =>
    intro acc hacc x hx
    rw [iterReach] at hx
    split at hx
    · exact hacc x hx
    · refine ih _ ?_ x hx
      intro a ha
      rcases List.mem_append.1 ha with hmem | hmem
      · exact hacc a hmem
      · rcases mem_succsOf.1 (mem_newFrontier.1 hmem).1 with ⟨c, hc, hedge⟩
        exact hstep c a (hacc c hc) hedge

theorem closed_of_frontier_nil {edges : List (Nat × Nat)} {acc : List Nat}
    (h : newFrontier edges acc = []) : EdgeClosed edges acc := by
  intro a ha b hab
  by_contra hb
  have hmem : b ∈ newFrontier edges acc :=
    mem_newFrontier.2 ⟨mem_succsOf.2 ⟨a, ha, hab⟩, hb⟩
  rw [h] at hmem
  simp at hmem

theorem iterReach_closed (edges : List (Nat × Nat)) :
    ∀ n acc,
      ((edges.map Prod.snd).toFinset \ acc.toFinset).card ≤ n →
      EdgeClosed edges (iterReach edges n acc) := by
  intro n
  induction n with
  | zero =>
    intro acc hcard
    rw [iterReach]
    intro a ha b hab
    have hb : b ∈ (edges.map Prod.snd).toFinset := by
      rw [List.mem_toFinset]
      exact List.mem_map.2 ⟨(a, b), hab, rfl⟩
    have hempty : (edges.map Prod.snd).toFinset \ acc.toFinset = ∅ :=
      Finset.card_eq_zero.1 (Nat.le_antisymm hcard (Nat.zero_le _))
    by_contra hbacc
    have hbd : b ∈ (edges.map Prod.snd).toFinset \ acc.toFinset :=
      Finset.mem_sdiff.2 ⟨hb, by rwa [List.mem_toFinset]⟩
    rw [hempty] at hbd
    exact absurd hbd (Finset.not_mem_empty b)
  | succ n ih =>
    intro acc hcard
    rw [iterReach]
    split
    · exact closed_of_frontier_nil (by assumption)
    · rename_i hne
      apply ih
      obtain ⟨x, hx⟩ := List.exists_mem_of_ne_nil _ hne
      have hx2 := mem_newFrontier.1 hx
      have hxT : x ∈ (edges.map Prod.snd).toFinset := by
        rw [List.mem_toFinset]
        rcases mem_succsOf.1 hx2.1 with ⟨a, _, hab⟩
        exact List.mem_map.2 ⟨(a, x), hab, rfl⟩
      have hxd : x ∈ (edges.map Prod.snd).toFinset \ acc.toFinset :=
        Finset.mem_sdiff.2 ⟨hxT, by rw [List.mem_toFinset]; exact hx2.2⟩
      have hsub :
          (edges.map Prod.snd).toFinset \
              (acc ++ newFrontier edges acc).toFinset ⊆
            ((edges.map Prod.snd).toFinset \ acc.toFinset).erase x := by
        intro y hy
        rcases Finset.mem_sdiff.1 hy with ⟨hyT, hyA⟩
        rw [List.toFinset_append, Finset.mem_union] at hyA
        push_neg at hyA
        refine Finset.mem_erase.2 ⟨?_, Finset.mem_sdiff.2 ⟨hyT, hyA.1⟩⟩
        intro hyx
        subst hyx
        exact hyA.2 (List.mem_toFinset.2 hx)
      calc ((edges.map Prod.snd).toFinset \
              (acc ++ newFrontier edges acc).toFinset).card
          ≤ (((edges.map Prod.snd).toFinset \ acc.toFinset).erase x).card :=
            Finset.card_le_card hsub
        _ = ((edges.map Prod.snd).toFinset \ acc.toFinset).card - 1 :=
            Finset.card_erase_of_mem hxd
        _ ≤ n := by omega

theorem iterReach_nodup (edges : List (Nat × Nat)) :
    ∀ n acc, acc.Nodup → (iterReach edges n acc).Nodup := by
  intro n
  induction n with
  | zero =>
    intro acc hnd
    rw [iterReach]
    exact hnd
  | succ n ih =>
    intro acc hnd
    rw [iterReach]
    split
    · exact hnd
    · apply ih
      refine List.Nodup.append hnd (List.nodup_dedup _) ?_
      intro x hx hx2
      exact (mem_newFrontier.1 hx2).2 hx

theorem reachSet_sound {edges : List (Nat × Nat)} {h x : Nat}
    (hx : x ∈ reachSet edges h) : Relation.TransGen (edgeRel edges) h x := by
  unfold reachSet at hx
  refine iterReach_sound edges (Relation.TransGen (edgeRel edges) h)
    ?_ (edges.length + 1) ((succsOf edges [h]).dedup) ?_ x hx
  · intro a b ha hab
    exact Relation.TransGen.tail ha hab
  · intro a ha
    rw [List.mem_dedup] at ha
    rcases mem_succsOf.1 ha with ⟨c, hc, hedge⟩
    rw [List.mem_singleton] at hc
    subst hc
    exact Relation.TransGen.single hedge

theorem reachSet_closed (edges : List (Nat × Nat)) (h : Nat) :
    EdgeClosed edges (reachSet edges h) := by
  unfold reachSet
  apply iterReach_closed
  calc ((edges.map Prod.snd).toFinset \
          ((succsOf edges [h]).dedup).toFinset).card
      ≤ (edges.map Prod.snd).toFinset.card :=
        Finset.card_le_card Finset.sdiff_subset
    _ ≤ (edges.map Prod.snd).length := List.toFinset_card_le _
    _ = edges.length := by simp
    _ ≤ edges.length + 1 := Nat.le_succ _

theorem reachSet_complete {edges : List (Nat × Nat)} {h x : Nat}
    (htg : Relation.TransGen (edgeRel edges) h x) : x ∈ reachSet edges h := by
  induction htg with
  | single hab =>
    apply subset_iterReach
    rw [List.mem_dedup]
    exact mem_succsOf.2 ⟨h, List.mem_singleton_self h, hab⟩
  | tail hty hyx ih =>
    exact reachSet_closed edges h _ ih _ hyx

theorem reachSet_nodup (edges : List (Nat × Nat)) (h : Nat) :
    (reachSet edges h).Nodup :=
  iterReach_nodup edges _ _ (List.nodup_dedup _)

theorem mem_ancestors_iff {g : GraphDB} (hwf : g.WellFormed) {h x : Nat} :
    x ∈ g.ancestors h ↔ Relation.TransGen (edgeRel g.edges) h x := by
  unfold GraphDB.ancestors
  split
  · exact ⟨reachSet_sound, reachSet_complete⟩
  · rename_i hno
    constructor
    · intro hx
      simp at hx
    · intro htg
      exfalso
      rcases Relation.TransGen.head'_iff.1 htg with ⟨b, hb, _⟩
      have h1 : h ∈ g.nodeIds := (hwf (h, b) hb).1
      apply hno
      rw [List.any_eq_true]
      rcases List.mem_map.1 h1 with ⟨p, hp, hph⟩
      exact ⟨p, hp, by simp [hph]⟩

theorem ancestors_nodup (g : GraphDB) (h : Nat) : (g.ancestors h).Nodup := by
  unfold GraphDB.ancestors
  split
  · exact reachSet_nodup _ _
  · exact List.nodup_nil

theorem LRU.get_add_self (c : LRU) (k : Nat) (v : Event) (hcap : 1 ≤ c.cap) :
    ((c.add k v).get k).2 = some v := by
  obtain ⟨m, hm⟩ : ∃ m, c.cap = m + 1 := ⟨c.cap - 1, by omega⟩
  unfold LRU.add LRU.get
  rw [hm]
  simp [List.take_succ_cons]

theorem Task.signals_eq (t : Task) : t.signals = t.onDone.toList := by
  rcases ht : t.onDone with _ | id
  · simp [Task.signals, Task.Done, callOnDone, ht]
  · simp [Task.signals, Task.Done, callOnDone, ht]

theorem Task.Done_ok (t : Task) : t.Done = .ok t.onDone.toList := by
  rcases ht : t.onDone with _ | id
  · simp [Task.Done, callOnDone, ht]
  · simp [Task.Done, callOnDone, ht]

theorem filterMap_of_getLast? {α β : Type} (f : α → Option β) (l : List α)
    (a : α) (h : l.getLast? = some a) :
    l.filterMap f = l.dropLast.filterMap f ++ (f a).toList := by
  conv_lhs => rw [← List.dropLast_append_getLast? a h]
  rw [List.filterMap_append]
  rcases hf : f a with _ | b <;> simp [hf]

theorem nodeIds_commitEvent_mono {g : GraphDB} {e : Event} {x : Nat}
    (hx : x ∈ g.nodeIds) : x ∈ (g.commitEvent e).nodeIds := by
  unfold GraphDB.commitEvent
  split
  · exact hx
  · unfold GraphDB.nodeIds at hx ⊢
    simp only [List.map_append, List.mem_append]
    exact Or.inl hx

theorem hash_mem_nodeIds_commitEvent (g : GraphDB) (e : Event) :
    e.hash ∈ (g.commitEvent e).nodeIds := by
  unfold GraphDB.commitEvent
  split
  · rename_i hany
    rw [List.any_eq_true] at hany
    rcases hany with ⟨p, hp, hph⟩
    simp only [decide_eq_true_eq] at hph
    exact List.mem_map.2 ⟨p, hp, hph⟩
  · unfold GraphDB.nodeIds
    simp

theorem completedTasks_idle {s : PState} (h : s.stage = .idle) :
    completedTasks s = s.consumed := by
  unfold completedTasks
  rw [h]

theorem completedTasks_committed {s : PState} {t : Task}
    (h : s.stage = .committed t) : completedTasks s = s.consumed.dropLast := by
  unfold completedTasks
  rw [h]

theorem completedTasks_cached {s : PState} {t : Task}
    (h : s.stage = .cached t) : completedTasks s = s.consumed.dropLast := by
  unfold completedTasks
  rw [h]

theorem inv_init (g : GraphDB) (b : Bool) : Inv (initState g b) := by
  constructor <;> simp [initState, completedTasks, Db.new]

theorem inv_step {s : PState} {l : Label} {s' : PState}
    (hs : Inv s) (hstep : Step s l s') : Inv s' := by
  cases hstep with
  | save e hclosed hlen =>
      have hcd : s.consumerDone = false := by
        by_contra hcd
        rw [Bool.not_eq_false] at hcd
        rw [(hs.doneIdle hcd).1] at hclosed
        exact Bool.noConfusion hclosed
      constructor
      · simp only [enqueueState, List.length_append, List.length_singleton]
        omega
      · simp only [enqueueState]
        rw [hs.queueSplit, List.append_assoc]
      · have h0 := hs.firedEq
        simpa [enqueueState, completedTasks] using h0
      · intro t ht
        exact hs.lastConsumed t (by simpa [enqueueState] using ht)
      · intro t ht
        exact hs.nodeMem t ht
      · intro t ht
        exact hs.cacheHit t (by simpa [enqueueState] using ht)
      · intro h
        simp only [enqueueState] at h
        rw [hcd] at h
        exact absurd h (Bool.false_ne_true)
      · exact hs.capEq
      · simpa [enqueueState, hcd] using hs.sumEq
  | commit t rest hcd hstage hq =>
      constructor
      · have h0 := hs.qcap
        rw [hq] at h0
        simp only [commitState, List.length_cons] at *
        omega
      · simp only [commitState]
        rw [hs.queueSplit, hq, List.append_cons]
      · rw [completedTasks_committed
          (show (commitState s t rest).stage = .committed t from rfl)]
        simp only [commitState, List.dropLast_concat]
        rw [hs.firedEq, completedTasks_idle hstage]
      · intro t' ht'
        simp only [commitState] at ht'
        have htt : t' = t := by
          rcases ht' with h1 | h1
          · injection h1 with h2
            exact h2.symm
          · exact absurd h1 (by simp)
        subst htt
        simp [commitState, List.getLast?_concat]
      · intro t' ht'
        simp only [commitState] at ht'
        rcases List.mem_append.1 ht' with h1 | h1
        · exact nodeIds_commitEvent_mono (hs.nodeMem t' h1)
        · rw [List.mem_singleton] at h1
          subst h1
          exact hash_mem_nodeIds_commitEvent _ _
      · intro t' ht'
        simp only [commitState] at ht'
        exact absurd ht' (by simp)
      · intro h
        simp only [commitState] at h
        rw [hcd] at h
        exact absurd h (Bool.false_ne_true)
      · exact hs.capEq
      · simpa [commitState, hcd] using hs.sumEq
  | cacheAdd t hstage =>
      have hcd : s.consumerDone = false := by
        by_contra hcd
        rw [Bool.not_eq_false] at hcd
        rw [(hs.doneIdle hcd).2.2] at hstage
        exact CStage.noConfusion hstage
      constructor
      · exact hs.qcap
      · exact hs.queueSplit
      · rw [completedTasks_cached
          (show (cacheState s t).stage = .cached t from rfl)]
        simp only [cacheState]
        rw [hs.firedEq, completedTasks_committed hstage]
      · intro t' ht'
        simp only [cacheState] at ht'
        have htt : t' = t := by
          rcases ht' with h1 | h1
          · exact absurd h1 (by simp)
          · injection h1 with h2; exact h2.symm
        subst htt
        exact hs.lastConsumed t' (Or.inl hstage)
      · intro t' ht'
        exact hs.nodeMem t' ht'
      · intro t' ht'
        simp only [cacheState] at ht'
        have htt : t' = t := by
          injection ht' with h2
          exact h2.symm
        subst htt
        simp only [cacheState]
        exact LRU.get_add_self _ _ _ (by rw [hs.capEq]; omega)
      · intro h
        simp only [cacheState] at h
        rw [hcd] at h
        exact absurd h (Bool.false_ne_true)
      · simpa [cacheState, LRU.add] using hs.capEq
      · simpa [cacheState, hcd] using hs.sumEq
  | signal t hstage =>
      have hcd : s.consumerDone = false := by
        by_contra hcd
        rw [Bool.not_eq_false] at hcd
        rw [(hs.doneIdle hcd).2.2] at hstage
        exact CStage.noConfusion hstage
      have hlast := hs.lastConsumed t (Or.inr hstage)
      constructor
      · exact hs.qcap
      · exact hs.queueSplit
      · rw [completedTasks_idle
          (show (signalState s t).stage = .idle from rfl)]
        simp only [signalState]
        rw [hs.firedEq, completedTasks_cached hstage, Task.signals_eq]
        exact (filterMap_of_getLast? Task.onDone s.consumed t hlast).symm
      · intro t' ht'
        simp only [signalState] at ht'
        rcases ht' with h1 | h1 <;> exact absurd h1 (by simp)
      · intro t' ht'
        exact hs.nodeMem t' ht'
      · intro t' ht'
        simp only [signalState] at ht'
        exact absurd ht' (by simp)
      · intro h
        simp only [signalState] at h
        rw [hcd] at h
        exact absurd h (Bool.false_ne_true)
      · exact hs.capEq
      · simpa [signalState, hcd] using hs.sumEq
  | close hclosed =>
      have hcd : s.consumerDone = false := by
        by_contra hcd
        rw [Bool.not_eq_false] at hcd
        rw [(hs.doneIdle hcd).1] at hclosed
        exact Bool.noConfusion hclosed
      constructor
      · exact hs.qcap
      · exact hs.queueSplit
      · have h0 := hs.firedEq
        simpa [closeState, completedTasks] using h0
      · intro t ht
        exact hs.lastConsumed t (by simpa [closeState] using ht)
      · intro t ht
        exact hs.nodeMem t ht
      · intro t ht
        exact hs.cacheHit t (by simpa [closeState] using ht)
      · intro h
        simp only [closeState] at h
        rw [hcd] at h
        exact absurd h (Bool.false_ne_true)
      · exact hs.capEq
      · simpa [closeState, hcd] using hs.sumEq
  | finish hcd hclosed hq hstage =>
      constructor
      · exact hs.qcap
      · exact hs.queueSplit
      · have h0 := hs.firedEq
        simpa [finishState, completedTasks] using h0
      · intro t ht
        exact hs.lastConsumed t (by simpa [finishState] using ht)
      · intro t ht
        exact hs.nodeMem t ht
      · intro t ht
        simp only [finishState] at ht
        rw [hstage] at ht
        exact CStage.noConfusion ht
      · intro _
        exact ⟨hclosed, hq, hstage⟩
      · exact hs.capEq
      · simp [finishState, hs.sumEq, hcd]

theorem reachable_inv {s : PState} (h : Reachable s) : Inv s := by
  induction h with
  | init g b => exact inv_init g b
  | step s l s' _ hstep ih => exact inv_step ih hstep

theorem StepStar.head {s s' s'' : PState} {l : Label}
    (h : Step s l s') (hss : StepStar s' s'') : StepStar s s'' := by
  induction hss with
  | refl => exact StepStar.tail _ _ _ _ (StepStar.refl s) h
  | tail s2 l2 s3 _ hstep ih => exact StepStar.tail _ _ _ _ ih hstep

theorem reachable_stepStar {s s' : PState} (h : Reachable s)
    (hss : StepStar s s') : Reachable s' := by
  induction hss with
  | refl => exact h
  | tail s2 l s3 _ hstep ih => exact Reachable.step _ _ _ ih hstep

theorem drainFuel_spec : ∀ (n : Nat) (s : PState),
    3 * s.queue.length + stageWeight s.stage < n →
    s.closed = true → s.consumerDone = false →
    StepStar s (drainFuel n s) ∧
    (drainFuel n s).consumerDone = true ∧
    (drainFuel n s).queue = [] ∧
    (drainFuel n s).consumed = s.consumed ++ s.queue ∧
    (drainFuel n s).enqueued = s.enqueued ∧
    (drainFuel n s).summaries = s.summaries + 1 := by
  intro n
  induction n with
  | zero =>
    intro s hlt
    exact absurd hlt (by omega)
  | succ n ih =>
    intro s hlt hclosed hcd
    rcases hst : s.stage with _ | t | t
    · rcases hq : s.queue with _ | ⟨t, rest⟩
      · have heq : drainFuel (n + 1) s = finishState s := by
          simp [drainFuel, hst, hq]
        rw [heq]
        refine ⟨?_, rfl, ?_, ?_, rfl, rfl⟩
        · exact StepStar.tail _ _ .finish _ (StepStar.refl s)
            (Step.finish s hcd hclosed hq hst)
        · simp [finishState, hq]
        · simp [finishState, hq]
      · have heq : drainFuel (n + 1) s = drainFuel n (commitState s t rest) := by
          simp [drainFuel, hst, hq]
        rw [heq]
        have hm : 3 * (commitState s t rest).queue.length +
            stageWeight (commitState s t rest).stage < n := by
          rw [hq, hst] at hlt
          simp only [commitState, stageWeight, List.length_cons] at hlt ⊢
          omega
        obtain ⟨hss, h1, h2, h3, h4, h5⟩ := ih (commitState s t rest) hm
          (by simp [commitState, hclosed]) (by simp [commitState, hcd])
        refine ⟨StepStar.head (Step.commit s t rest hcd hst hq) hss, h1, h2,
          ?_, ?_, ?_⟩
        · rw [h3]
          simp [commitState, hq]
        · exact h4
        · exact h5
    · have heq : drainFuel (n + 1) s = drainFuel n (cacheState s t) := by
        simp [drainFuel, hst]
      rw [heq]
      have hm : 3 * (cacheState s t).queue.length +
          stageWeight (cacheState s t).stage < n := by
        rw [hst] at hlt
        simp only [cacheState, stageWeight] at hlt ⊢
        omega
      obtain ⟨hss, h1, h2, h3, h4, h5⟩ := ih (cacheState s t) hm
        (by simp [cacheState, hclosed]) (by simp [cacheState, hcd])
      exact ⟨StepStar.head (Step.cacheAdd s t hst) hss, h1, h2, h3, h4, h5⟩
    · have heq : drainFuel (n + 1) s = drainFuel n (signalState s t) := by
        simp [drainFuel, hst]
      rw [heq]
      have hm : 3 * (signalState s t).queue.length +
          stageWeight (signalState s t).stage < n := by
        rw [hst] at hlt
        simp only [signalState, stageWeight] at hlt ⊢
        omega
      obtain ⟨hss, h1, h2, h3, h4, h5⟩ := ih (signalState s t) hm
        (by simp [signalState, hclosed]) (by simp [signalState, hcd])
      exact ⟨StepStar.head (Step.signal s t hst) hss, h1, h2, h3, h4, h5⟩

theorem drain_spec {s : PState} (hclosed : s.closed = true)
    (hcd : s.consumerDone = false) :
    StepStar s (drain s) ∧
    (drain s).consumerDone = true ∧
    (drain s).queue = [] ∧
    (drain s).consumed = s.consumed ++ s.queue ∧
    (drain s).enqueued = s.enqueued ∧
    (drain s).summaries = s.summaries + 1 := by
  unfold drain
  exact drainFuel_spec _ s (by omega) hclosed hcd

theorem w3_reachable : Reachable w3 :=
  Reachable.step _ .cacheAdd _
    (Reachable.step _ .commit _
      (Reachable.step _ (.save eA) _ (Reachable.init gW true)
        (Step.save _ _ rfl (by decide)))
      (Step.commit _ tA [] rfl rfl rfl))
    (Step.cacheAdd _ tA rfl)

/-- C1: for every event `e`, a synchronous `Save(e)` returns only once the
consumer has fired `e`'s completion signal, and at the signal-firing step
`e`'s write transaction has already run (its node is in the store) and `e`
has already been inserted into the cache, so `GetEvent(e.hash)` returns a
header equal to `e`'s header; in async mode the `Save` itself only enqueues
the task: it leaves the `Db`, the fired signals — everything except the
queue — untouched, returning as soon as the task is enqueued. -/
theorem claim_C1 :
    (∀ s t s', Reachable s → s.stage = .cached t → Step s .signal s' →
      s'.fired = s.fired ++ t.onDone.toList ∧
      t.event.hash ∈ s'.db.store.nodeIds ∧
      (s'.db.GetEvent t.event.hash false false).2 = .ok (some t.event)) ∧
    (∀ s e s', s.synced = false → Step s (.save e) s' →
      s'.db = s.db ∧ s'.fired = s.fired ∧
      s'.queue = s.queue ++ [{ event := e, onDone := none }]) := by
  constructor
  · intro s t s' hr hstage hstep
    have hinv := reachable_inv hr
    cases hstep with
    | signal t0 hst0 =>
        rw [hstage] at hst0
        injection hst0 with h0
        subst h0
        refine ⟨?_, ?_, ?_⟩
        · simp [signalState, Task.signals_eq]
        · have hlast := hinv.lastConsumed t (Or.inr hstage)
          have hc := List.dropLast_append_getLast? t hlast
          have htmem : t ∈ s.consumed := by
            rw [← hc]
            simp
          exact hinv.nodeMem t htmem
        · have hhit := hinv.cacheHit t hstage
          show ((signalState s t).db.GetEvent t.event.hash false false).2 =
            .ok (some t.event)
          simp only [signalState]
          unfold Db.GetEvent
          rw [hhit]
  · intro s e s' hsync hstep
    cases hstep with
    | save hclosed hlen =>
        refine ⟨rfl, rfl, ?_⟩
        simp [enqueueState, mkTask, hsync]

theorem claim_C1_witness :
    ((signalState w3 tA).db.GetEvent 1 false false).2 = .ok (some eA) ∧
    (signalState w3 tA).fired = [0] := by
  have h := claim_C1.1 w3 tA (signalState w3 tA) w3_reachable rfl
    (Step.signal w3 tA rfl)
  refine ⟨h.2.2, ?_⟩
  rw [h.1]
  rfl

/-- C2 counterexample: in an async pipeline, immediately after `Save(eB)`
has enqueued its task (one `save` step from a fresh pipeline),
`HasEvent(eB.hash)` returns false — the cache and the store are only
updated later, when the consumer processes the task, so the claim's
"HasEvent is true immediately after Save has enqueued" fails. -/
theorem claim_C2_counterexample :
    Step (initState gW false) (.save eB)
      (enqueueState (initState gW false) eB) ∧
    Reachable (enqueueState (initState gW false) eB) ∧
    ((enqueueState (initState gW false) eB).db.HasEvent 2 false).2 =
      .ok false := by
  refine ⟨Step.save _ _ rfl (by decide), ?_, rfl⟩
  exact Reachable.step _ _ _ (Reachable.init gW false)
    (Step.save _ _ rfl (by decide))

/-- C2 amended: `HasEvent(e.hash)` is true from the moment the consumer has
inserted `e` into the cache, which happens before `e`'s completion signal
fires (though after that task's store commit has executed) — not already
when `Save(e)` has merely enqueued its task. -/
theorem claim_C2_amended :
    ∀ s t s', Reachable s → s.stage = .cached t → Step s .signal s' →
      (s.db.HasEvent t.event.hash false).2 = .ok true ∧
      s'.fired = s.fired ++ t.onDone.toList := by
  intro s t s' hr hstage hstep
  have hinv := reachable_inv hr
  have hhit := hinv.cacheHit t hstage
  constructor
  · unfold Db.HasEvent
    rw [hhit]
  · cases hstep with
    | signal t0 hst0 =>
        rw [hstage] at hst0
        injection hst0 with h0
        subst h0
        simp [signalState, Task.signals_eq]

theorem claim_C2_amended_witness :
    (w3.db.HasEvent 1 false).2 = .ok true ∧
    (signalState w3 tA).fired = [0] := by
  have h := claim_C2_amended w3 tA (signalState w3 tA) w3_reachable rfl
    (Step.signal w3 tA rfl)
  refine ⟨h.1, ?_⟩
  rw [h.2]
  rfl

/-- C3 counterexample: with event node 1 present in the store and an empty
cache, `GetEvent 1` reconstructs and returns the event, yet the cache of
the resulting `Db` still has no entry at all — the code never backfills the
cache with the reconstructed event, contrary to the claim. -/
theorem claim_C3_counterexample :
    (dbC3.GetEvent 1 false false).2 =
      .ok (some { hash := 1, creator := 7, parents := [] }) ∧
    (((dbC3.GetEvent 1 false false).1).cache.get 1).2 = none ∧
    ((dbC3.GetEvent 1 false false).1).cache.entries = [] :=
  ⟨rfl, rfl, rfl⟩

/-- C3 amended: on a cache miss `GetEvent(h)` issues the node lookup plus
the separate traversal collecting direct parent edges, reconstructs the
event and returns it while leaving the `Db` (in particular its cache)
unchanged — it does not backfill the cache; a hash absent from the store
yields the explicit not-found result, never an error. -/
theorem claim_C3_amended :
    ∀ (db : Db) (h : Nat), (db.cache.get h).2 = none →
      (db.GetEvent h false false).1 = db ∧
      (∀ nd, db.store.nodes.find? (fun n => n.1 = h) = some nd →
        (db.GetEvent h false false).2 = .ok (some
          { hash := h
            creator := nd.2
            parents := db.store.edges.filterMap
              (fun p => if p.1 = h then some p.2 else none) })) ∧
      (db.store.nodes.find? (fun n => n.1 = h) = none →
        (db.GetEvent h false false).2 = .ok none) := by
  intro db h hmiss
  have hget1 : (db.cache.get h).1 = db.cache := by
    unfold LRU.get at hmiss ⊢
    rcases hf : db.cache.entries.find? (fun p => p.1 = h) with _ | p
    · rw [hf]
    · rw [hf] at hmiss
      simp at hmiss
  refine ⟨?_, ?_, ?_⟩
  · rcases hf : db.store.nodes.find? (fun n => n.1 = h) with _ | nd
    · simp [Db.GetEvent, hmiss, hget1, hf]
    · simp [Db.GetEvent, hmiss, hget1, hf]
  · intro nd hnd
    simp [Db.GetEvent, hmiss, hnd]
  · intro hnone
    simp [Db.GetEvent, hmiss, hnone]

theorem claim_C3_amended_witness :
    (dbC3.GetEvent 1 false false).1 = dbC3 ∧
    (dbC3.GetEvent 9 false false).2 = .ok none := by
  have h1 := claim_C3_amended dbC3 1 rfl
  have h9 := claim_C3_amended dbC3 9 rfl
  exact ⟨h1.1, h9.2.2 rfl⟩

/-- C4 counterexample: a store failure during `HasEvent`'s read transaction
(and likewise during `FindAncestors`'s) is not swallowed: the code calls
`ignoreFakeError` and then type-asserts the `nil` result, which panics —
the failure does escalate to the caller, contradicting the claim that
`HasEvent` and `FindAncestors` surface no error under any store failure. -/
theorem claim_C4_counterexample :
    (dbC3.HasEvent 1 true).2 =
      .error "interface conversion panic: nil result asserted to bool" ∧
    dbC3.FindAncestors 1 true =
      .error "interface conversion panic: nil result asserted to slice" :=
  ⟨rfl, rfl⟩

/-- C4 amended: a store failure during the pipeline's per-task commit is
logged and swallowed, never retried (the store is left unchanged by the
single attempt) and never escalated — the iteration still updates the cache
and fires the completion signal, so `Save` surfaces no error; but a store
failure during `HasEvent`'s or `FindAncestors`'s read transaction makes the
nil-result type assertion panic, escalating the failure to the caller. -/
theorem claim_C4_amended :
    (∀ (db : Db) (t : Task),
      (db.loadStep t true).1.store = db.store ∧
      (db.loadStep t true).1.cache = db.cache.add t.event.hash t.event ∧
      (db.loadStep t true).2 = t.onDone.toList) ∧
    (∀ (db : Db) (h : Nat), (db.cache.get h).2 = none →
      (db.HasEvent h true).2 =
        .error "interface conversion panic: nil result asserted to bool") ∧
    (∀ (db : Db) (h : Nat),
      db.FindAncestors h true =
        .error "interface conversion panic: nil result asserted to slice") := by
  refine ⟨?_, ?_, ?_⟩
  · intro db t
    exact ⟨rfl, rfl, Task.signals_eq t⟩
  · intro db h hmiss
    simp [Db.HasEvent, hmiss]
  · intro db h
    rfl

theorem claim_C4_amended_witness :
    (dbC3.loadStep tA true).1.store = dbC3.store ∧
    (dbC3.HasEvent 9 true).2 =
      .error "interface conversion panic: nil result asserted to bool" ∧
    dbC3.FindAncestors 9 true =
      .error "interface conversion panic: nil result asserted to slice" :=
  ⟨(claim_C4_amended.1 dbC3 tA).1, claim_C4_amended.2.1 dbC3 9 rfl,
    claim_C4_amended.2.2 dbC3 9⟩

/-- C5: from any reachable state where the pipeline has been closed and the
consumer has not yet terminated, the consumer's drain run is a sequence of
pipeline steps that dequeues and processes every task enqueued before the
close in enqueue order (the final consumption history equals the enqueue
history), commits every dequeued task's event node to the store, fires each
task's completion signal in order, and only then terminates with an empty
queue, having emitted exactly one final summary line — no enqueued task is
abandoned. -/
theorem claim_C5 :
    ∀ s, Reachable s → s.closed = true → s.consumerDone = false →
      StepStar s (drain s) ∧
      (drain s).consumerDone = true ∧
      (drain s).queue = [] ∧
      (drain s).consumed = s.consumed ++ s.queue ∧
      (drain s).enqueued = (drain s).consumed ∧
      (drain s).fired = (drain s).consumed.filterMap Task.onDone ∧
      (∀ t ∈ (drain s).consumed, t.event.hash ∈ (drain s).db.store.nodeIds) ∧
      (drain s).summaries = 1 := by
  intro s hr hclosed hcd
  obtain ⟨hss, h1, h2, h3, h4, h5⟩ := drain_spec hclosed hcd
  have hr2 : Reachable (drain s) := reachable_stepStar hr hss
  have hinv := reachable_inv hr2
  have hidle : (drain s).stage = .idle := (hinv.doneIdle h1).2.2
  refine ⟨hss, h1, h2, h3, ?_, ?_, hinv.nodeMem, ?_⟩
  · rw [hinv.queueSplit, h2, List.append_nil]
  · rw [hinv.firedEq, completedTasks_idle hidle]
  · rw [h5, (reachable_inv hr).sumEq, hcd]
    simp

theorem claim_C5_witness :
    StepStar (closeState w1) (drain (closeState w1)) ∧
    (drain (closeState w1)).consumerDone = true ∧
    (drain (closeState w1)).enqueued = (drain (closeState w1)).consumed ∧
    (drain (closeState w1)).fired =
      (drain (closeState w1)).consumed.filterMap Task.onDone ∧
    (drain (closeState w1)).summaries = 1 := by
  have hr : Reachable (closeState w1) :=
    Reachable.step _ .close _
      (Reachable.step _ (.save eA) _ (Reachable.init gW true)
        (Step.save _ _ rfl (by decide)))
      (Step.close _ rfl)
  have h := claim_C5 (closeState w1) hr rfl rfl
  exact ⟨h.1, h.2.1, h.2.2.2.2.1, h.2.2.2.2.2.1, h.2.2.2.2.2.2.2⟩

/-- C6: every reachable pipeline state holds at most 10 pending tasks and
loses none of them (the enqueue history is exactly the consumption history
followed by the pending queue), and when the queue is full no `save` step
is possible — a producer calling `Save` blocks until a slot frees. -/
theorem claim_C6 :
    (∀ s, Reachable s →
      s.queue.length ≤ 10 ∧ s.enqueued = s.consumed ++ s.queue) ∧
    (∀ s e s', s.queue.length = 10 → ¬ Step s (.save e) s') := by
  constructor
  · intro s hr
    exact ⟨(reachable_inv hr).qcap, (reachable_inv hr).queueSplit⟩
  · intro s e s' hfull hstep
    cases hstep with
    | save hclosed hlen => omega

theorem claim_C6_witness :
    ((initState gW true).queue.length ≤ 10 ∧
      (initState gW true).enqueued =
        (initState gW true).consumed ++ (initState gW true).queue) ∧
    ¬ Step sFull (.save eA) (enqueueState sFull eA) :=
  ⟨claim_C6.1 _ (Reachable.init gW true), claim_C6.2 sFull eA _ rfl⟩

/-- C7: `GetEpoch` returns 1 whenever the singleton epoch row is absent
from the store, and the stored counter value otherwise. -/
theorem claim_C7 :
    ∀ db : Db,
      (db.store.epochRow = none → db.GetEpoch false = 1) ∧
      (∀ n, db.store.epochRow = some n → db.GetEpoch false = n) := by
  intro db
  constructor
  · intro h
    simp [Db.GetEpoch, h]
  · intro n h
    simp [Db.GetEpoch, h]

theorem claim_C7_witness :
    dbW0.GetEpoch false = 1 ∧ dbE.GetEpoch false = 7 :=
  ⟨(claim_C7 dbW0).1 rfl, (claim_C7 dbE).2 7 rfl⟩

/-- C8: `SetEpoch(v)` overwrites the singleton epoch counter
unconditionally — no monotonicity validation, any `v` is accepted — so a
subsequent `GetEpoch` returns `v`; the singleton row exists in every handle
produced by `New` (the bootstrap seeds it), and the second part states the
round trip for any freshly constructed handle. -/
theorem claim_C8 :
    (∀ (db : Db) (v : Nat), db.store.epochRow.isSome = true →
      (db.SetEpoch v false).GetEpoch false = v) ∧
    (∀ (g : GraphDB) (v : Nat),
      ((Db.new g).SetEpoch v false).GetEpoch false = v) := by
  constructor
  · intro db v h
    rcases he : db.store.epochRow with _ | n
    · rw [he] at h
      simp at h
    · simp [Db.SetEpoch, Db.GetEpoch, he]
  · intro g v
    rcases he : g.epochRow with _ | n
    · simp [Db.new, GraphDB.bootstrap, he, Db.SetEpoch, Db.GetEpoch]
    · simp [Db.new, GraphDB.bootstrap, he, Db.SetEpoch, Db.GetEpoch]

theorem claim_C8_witness :
    (dbE.SetEpoch 5 false).GetEpoch false = 5 ∧
    ((Db.new gW).SetEpoch 5 false).GetEpoch false = 5 :=
  ⟨claim_C8.1 dbE 5 rfl, claim_C8.2 gW 5⟩

/-- C9: on a well-formed store whose PARENT edges have no cycle through
`h`, `FindAncestors(h)` returns the distinct set of exactly the nodes
transitively reachable from `h` along PARENT edges of any depth, without
duplicates and excluding `h` itself; in particular, it contains every
direct parent `p` of `h` recorded in the store together with all of `p`'s
own ancestors. -/
theorem claim_C9 :
    ∀ (db : Db) (h : Nat), db.store.WellFormed →
      ¬ Relation.TransGen (edgeRel db.store.edges) h h →
      db.FindAncestors h false = .ok (db.store.ancestors h) ∧
      (db.store.ancestors h).Nodup ∧
      h ∉ db.store.ancestors h ∧
      (∀ x, x ∈ db.store.ancestors h ↔
        Relation.TransGen (edgeRel db.store.edges) h x) ∧
      (∀ p, (h, p) ∈ db.store.edges →
        p ∈ db.store.ancestors h ∧
        ∀ q ∈ db.store.ancestors p, q ∈ db.store.ancestors h) := by
  intro db h hwf hacyc
  refine ⟨rfl, ancestors_nodup _ _, ?_, fun x => mem_ancestors_iff hwf, ?_⟩
  · intro hmem
    exact hacyc ((mem_ancestors_iff hwf).1 hmem)
  · intro p hp
    have hp1 : Relation.TransGen (edgeRel db.store.edges) h p :=
      Relation.TransGen.single hp
    refine ⟨(mem_ancestors_iff hwf).2 hp1, ?_⟩
    intro q hq
    have hq1 : Relation.TransGen (edgeRel db.store.edges) p q :=
      (mem_ancestors_iff hwf).1 hq
    exact (mem_ancestors_iff hwf).2 (Relation.TransGen.trans hp1 hq1)

theorem claim_C9_witness :
    (dbW9.store.ancestors 3).Nodup ∧
    3 ∉ dbW9.store.ancestors 3 ∧
    (1 ∈ dbW9.store.ancestors 3 ↔
      Relation.TransGen (edgeRel dbW9.store.edges) 3 1) ∧
    dbW9.FindAncestors 3 false = .ok (dbW9.store.ancestors 3) := by
  have h := claim_C9 dbW9 3
    (by unfold GraphDB.WellFormed GraphDB.nodeIds; decide)
    (fun hT => absurd (reachSet_complete hT) (by decide))
  exact ⟨h.2.1, h.2.2.1, h.2.2.2.1 1, h.1⟩

/-- C10: `task.Done` is safe in both modes — with no callback attached
(async mode) it is a no-op returning without panicking, and with a callback
(sync mode) it fires exactly that task's single completion signal; along
any reachable pipeline run the fired signals are exactly one per fully
processed task with a callback, in processing order. -/
theorem claim_C10 :
    (∀ t : Task, t.onDone = none → t.Done = .ok []) ∧
    (∀ (t : Task) (id : Nat), t.onDone = some id → t.Done = .ok [id]) ∧
    (∀ (t : Task) (msg : String), t.Done ≠ .error msg) ∧
    (∀ s, Reachable s →
      s.fired = (completedTasks s).filterMap Task.onDone) := by
  refine ⟨?_, ?_, ?_, ?_⟩
  · intro t h
    rw [Task.Done_ok, h]
    rfl
  · intro t id h
    rw [Task.Done_ok, h]
    rfl
  · intro t msg h
    rw [Task.Done_ok] at h
    exact Except.noConfusion h
  · intro s hr
    exact (reachable_inv hr).firedEq

theorem claim_C10_witness :
    tB.Done = .ok [] ∧ tA.Done = .ok [0] ∧
    (initState gW true).fired =
      (completedTasks (initState gW true)).filterMap Task.onDone :=
  ⟨claim_C10.1 tB rfl, claim_C10.2.1 tA 0 rfl,
    claim_C10.2.2.2 _ (Reachable.init gW true)⟩

end DagReader
